import Mathlib

/-!
# Shallow embedding of the typing-test session (src/main.go)

The Go program is a bubbletea TUI; its core is the `Model` struct together
with `NewModel`, `Quit` and `Update` in `src/main.go`.  Strings are modelled
as `List Char` (the buffer is ASCII, so Go's byte/rune indexing coincides
with list indexing).  Floating-point statistics are modelled over `ℚ`
(division by zero yields `0` in `ℚ`, where Go produces a non-finite float;
none of the verified statements depends on that point).

The bubbletea stopwatch (`m.time`) is modelled synchronously: the commands
returned by `Start`/`Stop` are taken to be applied immediately, and a tick
message advances the elapsed time by the configured interval (1 ms), which
is the single-actor idealization the program relies on.

Modelled from the spec: the `wordwrap.String`/`term.GetSize` layout step in
`NewModel` is an external library, declared out of scope by the spec
("wrapping must not insert or delete characters other than permissible
line-break whitespace/newlines"); the buffer is modelled as the plain
single-space join of the words, i.e. the layout of a terminal wide enough
that no line break is inserted.  `panic` in `NewModel` is modelled by
`Option`.
-/

namespace TypingTest

/-- `type Status int` with `Neutral = -1`, `Good = 1`, `Bad = 0`. -/
inductive Status where
  | Neutral
  | Good
  | Bad
  deriving Repr, DecidableEq

open Status

/-- The numeric value of a `Status` (the Go constant backing the enum):
`Neutral = -1`, `Good = 1`, `Bad = 0`.  Used by the accuracy loop, which
sums `float64(m.inputs[index])`. -/
def statusVal : Status → Int
  | Neutral => -1
  | Good => 1
  | Bad => 0

/-- `ok_inputs = " abcdefghijklmnopqrstuvwxyz"`: the accepted input
alphabet (space and lowercase a-z). -/
def okInputs : List Char := " abcdefghijklmnopqrstuvwxyz".data

/-- The bubbletea stopwatch, reduced to the state the program observes:
whether it is running and the elapsed time in milliseconds (the program
constructs it with `stopwatch.NewWithInterval(time.Millisecond)`). -/
structure Stopwatch where
  running : Bool
  elapsedMs : Nat
  deriving Repr, DecidableEq

/-- `stopwatch.NewWithInterval(time.Millisecond)`: not running, zero elapsed. -/
def Stopwatch.new : Stopwatch := ⟨false, 0⟩

/-- `m.time.Start()`, applied synchronously. -/
def Stopwatch.start (t : Stopwatch) : Stopwatch := { t with running := true }

/-- `m.time.Stop()`, applied synchronously. -/
def Stopwatch.stop (t : Stopwatch) : Stopwatch := { t with running := false }

/-- One stopwatch tick: the stopwatch accrues one interval (1 ms) per tick
while running. -/
def Stopwatch.tick (t : Stopwatch) : Stopwatch :=
  if t.running then { t with elapsedMs := t.elapsedMs + 1 } else t

/-- `m.time.Elapsed().Minutes()` as a rational. -/
def Stopwatch.minutes (t : Stopwatch) : ℚ := (t.elapsedMs : ℚ) / 60000

/-- `m.time.Elapsed().Seconds()` as a rational. -/
def Stopwatch.seconds (t : Stopwatch) : ℚ := (t.elapsedMs : ℚ) / 1000

/-- The messages the program's `Update` distinguishes: the two abort keys
(`"ctrl+c"`, `"esc"`), a single-character key event, and a stopwatch tick
(any non-key message only reaches `m.time.Update`). -/
inductive Msg where
  | keyCtrlC
  | keyEsc
  | keyChar (c : Char)
  | tick
  deriving Repr, DecidableEq

/-- The data of the final `fmt.Sprintf` in `Quit` (the `stats` string):
good word count, elapsed seconds, WPM, and the accuracy percentage. -/
structure Summary where
  goodWords : Nat
  seconds : ℚ
  wpm : ℚ
  accuracyPct : ℚ
  deriving Repr, DecidableEq

/-- The `Model` struct.  `stats` is `Option Summary`: `none` models the
initial empty string, `some s` the formatted statistics block. -/
structure Model where
  chars : List Char
  words : List (List Char)
  inputs : List Status
  current : Nat
  quitting : Bool
  time : Stopwatch
  stats : Option Summary
  deriving Repr, DecidableEq

/-- `strings.Join(words, " ")` on char lists. -/
def mkChars : List (List Char) → List Char
  | [] => []
  | [w] => w
  | w :: rest => w ++ ' ' :: mkChars rest

/-- The record built at the end of `NewModel`: all-`Neutral` statuses, cursor
0, not quitting, fresh stopwatch, empty stats. -/
def initModel (words : List (List Char)) : Model :=
  { chars := mkChars words
    words := words
    inputs := List.replicate (mkChars words).length Neutral
    current := 0
    quitting := false
    time := Stopwatch.new
    stats := none }

/-- `NewModel`: fails (Go: `panic`) when the joined buffer is empty,
otherwise returns the initial model. -/
def NewModel (words : List (List Char)) : Option Model :=
  if (mkChars words).length = 0 then none else some (initModel words)

/-- The word-verdict scan of `Quit` (the loop filling `typed`): `i` is the
running index into the buffer, `flag` the running word flag (starts `Good`),
`acc` the verdicts appended so far.  A space appends the flag and resets it
to `Good`; a non-space character whose status is not `Good` turns the flag
`Bad`; after the loop the final word's flag is appended once more. -/
def wordFlagsAux (inputs : List Status) : Nat → List Char → Status → List Status → List Status
  | _, [], flag, acc => acc ++ [flag]
  | i, c :: rest, flag, acc =>
    if c = ' ' then wordFlagsAux inputs (i + 1) rest Good (acc ++ [flag])
    else if inputs.getD i Neutral ≠ Good then wordFlagsAux inputs (i + 1) rest Bad acc
    else wordFlagsAux inputs (i + 1) rest flag acc

/-- The complete `typed` list produced by `Quit`'s scan of the buffer. -/
def wordFlags (inputs : List Status) (chars : List Char) : List Status :=
  wordFlagsAux inputs 0 chars Good []

/-- The counting loop of `Quit` over `typed`: for each `Good` verdict it
adds 1 to `length_typed_words` and `len(m.words[index])` to
`length_typed_chars`. -/
def countGoodAux (words : List (List Char)) : Nat → Nat × Nat → List Status → Nat × Nat
  | _, acc, [] => acc
  | i, acc, s :: rest =>
    countGoodAux words (i + 1)
      (if s = Good then (acc.1 + 1, acc.2 + (words.getD i []).length) else acc) rest

/-- `(length_typed_words, length_typed_chars)` computed by `Quit`. -/
def countGood (typed : List Status) (words : List (List Char)) : Nat × Nat :=
  countGoodAux words 0 (0, 0) typed

/-- The accuracy loop of `Quit`: `for index := range m.current
{ accuracy += float64(m.inputs[index]) }`. -/
def accSum (inputs : List Status) (n : Nat) : ℚ :=
  (List.range n).foldl (fun a i => a + ((statusVal (inputs.getD i Neutral) : Int) : ℚ)) 0

/-- The statistics block `Quit` computes when the timer is running:
word verdicts, good-word/good-char counts, WPM
(`float64(length_typed_chars) / (5 * m.time.Elapsed().Minutes())`), and
accuracy (`sum / float64(m.current)`, displayed as a percentage). -/
def Model.summaryOf (m : Model) : Summary :=
  { goodWords := (countGood (wordFlags m.inputs m.chars) m.words).1
    seconds := m.time.seconds
    wpm := (((countGood (wordFlags m.inputs m.chars) m.words).2 : ℚ)) / (5 * m.time.minutes)
    accuracyPct := 100 * (accSum m.inputs m.current / (m.current : ℚ)) }

/-- `func (m *Model) Quit()`: sets `quitting`; if the timer is not running it
returns at once (leaving `stats` as it was), otherwise it stops the timer
and computes the statistics block. -/
def Model.Quit (m : Model) : Model :=
  if m.time.running then
    { m with quitting := true, time := m.time.stop, stats := some m.summaryOf }
  else
    { m with quitting := true }

/-- `func (m Model) Update(msg tea.Msg) (tea.Model, tea.Cmd)`.  The returned
`Bool` is the continue signal: `false` stands for the `tea.Quit` command.
The two abort keys call `Quit` unconditionally.  A single-character key in
`ok_inputs` is consumed: the timer starts on the first keystroke, the
character at the cursor is marked `Good` on a match and `Bad` otherwise; if
the cursor sits on the last buffer index the session ends in the same step,
otherwise the cursor advances.  Any other message leaves the model alone
apart from the stopwatch's own tick handling. -/
def Model.Update (m : Model) (msg : Msg) : Model × Bool :=
  match msg with
  | .keyCtrlC => (m.Quit, false)
  | .keyEsc => (m.Quit, false)
  | .keyChar c =>
    if okInputs.contains c then
      let t := if m.current = 0 && !m.time.running then m.time.start else m.time
      let status := if m.chars.getD m.current ' ' = c then Good else Bad
      let m' := { m with time := t, inputs := m.inputs.set m.current status }
      if m'.current = m'.chars.length - 1 then (m'.Quit, false)
      else ({ m' with current := m'.current + 1 }, true)
    else (m, true)
  | .tick => ({ m with time := m.time.tick }, true)

/-- The bubbletea event loop: feed messages one at a time, stopping as soon
as `Update` signals termination (`tea.Quit`). -/
def runMsgs (m : Model) : List Msg → Model
  | [] => m
  | msg :: rest =>
    match m.Update msg with
    | (m', true) => runMsgs m' rest
    | (m', false) => m'

/-- The space-delimited segments of a buffer (the spec's notion of word
boundaries recoverable from `buffer`). -/
def segments : List Char → List (List Char)
  | [] => [[]]
  | c :: rest =>
    if c = ' ' then [] :: segments rest
    else
      match segments rest with
      | s :: ss => (c :: s) :: ss
      | [] => [[c]]

/-! ## Helper lemmas -/

theorem getD_set_self {α : Type} (l : List α) (n : Nat) (a d : α) (h : n < l.length) :
    (l.set n a).getD n d = a := by
  induction l generalizing n with
  | nil => simp at h
  | cons x xs ih =>
    cases n with
    | zero => simp
    | succ k =>
      simp only [List.set_cons_succ, List.getD_cons_succ]
      exact ih k (by simpa using h)

theorem wordFlagsAux_length (inputs : List Status) (cs : List Char) :
    ∀ (i : Nat) (flag : Status) (acc : List Status),
      (wordFlagsAux inputs i cs flag acc).length = acc.length + cs.count ' ' + 1 := by
  induction cs with
  | nil => intro i flag acc; simp [wordFlagsAux]
  | cons c rest ih =>
    intro i flag acc
    by_cases hc : c = ' '
    · subst hc
      rw [show wordFlagsAux inputs i (' ' :: rest) flag acc
            = wordFlagsAux inputs (i + 1) rest Status.Good (acc ++ [flag]) from by
          simp [wordFlagsAux]]
      rw [ih]
      simp [List.count_cons]
      omega
    · simp only [wordFlagsAux, if_neg hc]
      have hcount : (c :: rest).count ' ' = rest.count ' ' := by
        simp [List.count_cons, hc]
      by_cases hg : inputs.getD i Status.Neutral ≠ Status.Good
      · rw [if_pos hg, ih, hcount]
      · rw [if_neg hg, ih, hcount]

theorem wordFlags_length (inputs : List Status) (chars : List Char) :
    (wordFlags inputs chars).length = chars.count ' ' + 1 := by
  simp [wordFlags, wordFlagsAux_length]

theorem wordFlagsAux_good_bad (inputs : List Status) (cs : List Char) :
    ∀ (i : Nat) (flag : Status) (acc : List Status),
      (flag = Status.Good ∨ flag = Status.Bad) →
      (∀ f ∈ acc, f = Status.Good ∨ f = Status.Bad) →
      ∀ f ∈ wordFlagsAux inputs i cs flag acc, f = Status.Good ∨ f = Status.Bad := by
  induction cs with
  | nil =>
    intro i flag acc hflag hacc f hf
    simp only [wordFlagsAux, List.mem_append, List.mem_singleton] at hf
    rcases hf with h | h
    · exact hacc f h
    · subst h; exact hflag
  | cons c rest ih =>
    intro i flag acc hflag hacc f hf
    by_cases hc : c = ' '
    · subst hc
      simp only [wordFlagsAux, if_pos rfl] at hf
      refine ih (i + 1) Status.Good (acc ++ [flag]) (Or.inl rfl) ?_ f hf
      intro g hg
      rcases List.mem_append.mp hg with h | h
      · exact hacc g h
      · rcases List.mem_singleton.mp h with rfl; exact hflag
    · simp only [wordFlagsAux, if_neg hc] at hf
      by_cases hg : inputs.getD i Status.Neutral ≠ Status.Good
      · rw [if_pos hg] at hf
        exact ih (i + 1) Status.Bad acc (Or.inr rfl) hacc f hf
      · rw [if_neg hg] at hf
        exact ih (i + 1) flag acc hflag hacc f hf

theorem wordFlags_good_bad (inputs : List Status) (chars : List Char) :
    ∀ f ∈ wordFlags inputs chars, f = Status.Good ∨ f = Status.Bad :=
  wordFlagsAux_good_bad inputs chars 0 Status.Good [] (Or.inl rfl) (by simp)

theorem segments_no_space (w : List Char) (h : ' ' ∉ w) : segments w = [w] := by
  induction w with
  | nil => rfl
  | cons c rest ih =>
    have hc : c ≠ ' ' := fun hc => h (hc ▸ List.mem_cons_self c rest)
    have hrest : ' ' ∉ rest := fun hm => h (List.mem_cons_of_mem c hm)
    simp only [segments, if_neg hc, ih hrest]

theorem segments_append_space (w rest : List Char) (h : ' ' ∉ w) :
    segments (w ++ ' ' :: rest) = w :: segments rest := by
  induction w with
  | nil => simp [segments]
  | cons c cs ih =>
    have hc : c ≠ ' ' := fun hc => h (hc ▸ List.mem_cons_self c cs)
    have hcs : ' ' ∉ cs := fun hm => h (List.mem_cons_of_mem c hm)
    have hne : segments (cs ++ ' ' :: rest) = cs :: segments rest := ih hcs
    simp only [List.cons_append, segments, if_neg hc, List.append_eq]
    rw [hne]

theorem segments_mkChars (ws : List (List Char)) (hne : ws ≠ [])
    (hsp : ∀ w ∈ ws, ' ' ∉ w) : segments (mkChars ws) = ws := by
  induction ws with
  | nil => exact absurd rfl hne
  | cons w rest ih =>
    cases rest with
    | nil =>
      exact segments_no_space w (hsp w (List.mem_cons_self w []))
    | cons w2 rest2 =>
      have hw : ' ' ∉ w := hsp w (List.mem_cons_self _ _)
      have hrest : ∀ v ∈ w2 :: rest2, ' ' ∉ v := fun v hv =>
        hsp v (List.mem_cons_of_mem w hv)
      have : mkChars (w :: w2 :: rest2) = w ++ ' ' :: mkChars (w2 :: rest2) := rfl
      rw [this, segments_append_space w _ hw, ih (by simp) hrest]

theorem count_space_eq_zero (w : List Char) (h : ' ' ∉ w) : w.count ' ' = 0 :=
  List.count_eq_zero.mpr h

theorem mkChars_count_space (ws : List (List Char)) (hne : ws ≠ [])
    (hsp : ∀ w ∈ ws, ' ' ∉ w) : (mkChars ws).count ' ' = ws.length - 1 := by
  induction ws with
  | nil => exact absurd rfl hne
  | cons w rest ih =>
    cases rest with
    | nil => simp [mkChars, count_space_eq_zero w (hsp w (by simp))]
    | cons w2 rest2 =>
      have hw : ' ' ∉ w := hsp w (List.mem_cons_self _ _)
      have hrest : ∀ v ∈ w2 :: rest2, ' ' ∉ v := fun v hv =>
        hsp v (List.mem_cons_of_mem w hv)
      have hmk : mkChars (w :: w2 :: rest2) = w ++ ' ' :: mkChars (w2 :: rest2) := rfl
      rw [hmk]
      simp only [List.count_append, List.count_cons, count_space_eq_zero w hw,
        ih (by simp) hrest]
      simp

theorem countGoodAux_spec (ws : List (List Char)) (l : List Status) :
    ∀ (i : Nat) (acc : Nat × Nat),
      countGoodAux ws i acc l
        = (acc.1 + l.count Status.Good,
           acc.2 + ∑ j ∈ Finset.range l.length,
             if l.getD j Status.Neutral = Status.Good then (ws.getD (i + j) []).length else 0) := by
  induction l with
  | nil => intro i acc; simp [countGoodAux]
  | cons s rest ih =>
    intro i acc
    rw [show countGoodAux ws i acc (s :: rest)
          = countGoodAux ws (i + 1)
              (if s = Status.Good then (acc.1 + 1, acc.2 + (ws.getD i []).length) else acc)
              rest from rfl]
    rw [ih]
    have hsum : ∑ j ∈ Finset.range (s :: rest).length,
        (if (s :: rest).getD j Status.Neutral = Status.Good then (ws.getD (i + j) []).length else 0)
        = (if s = Status.Good then (ws.getD i []).length else 0)
          + ∑ j ∈ Finset.range rest.length,
              (if rest.getD j Status.Neutral = Status.Good then (ws.getD (i + 1 + j) []).length else 0) := by
      rw [List.length_cons, Finset.sum_range_succ']
      simp only [List.getD_cons_succ, List.getD_cons_zero, Nat.add_zero]
      rw [add_comm]
      congr 1
      apply Finset.sum_congr rfl
      intro j _
      rw [show i + (j + 1) = i + 1 + j from by omega]
    have hcount : (s :: rest).count Status.Good
        = rest.count Status.Good + (if s = Status.Good then 1 else 0) := by
      cases s <;> simp [List.count_cons]
    rw [hsum, hcount]
    by_cases hs : s = Status.Good
    · simp only [if_pos hs, Prod.mk.injEq]
      omega
    · simp only [if_neg hs, Prod.mk.injEq]
      omega

theorem countGood_spec (typed : List Status) (ws : List (List Char)) :
    countGood typed ws
      = (typed.count Status.Good,
         ∑ j ∈ Finset.range typed.length,
           if typed.getD j Status.Neutral = Status.Good then (ws.getD j []).length else 0) := by
  rw [countGood, countGoodAux_spec]
  simp

theorem accSum_eq (inputs : List Status) (n : Nat) :
    accSum inputs n
      = ∑ i ∈ Finset.range n, ((statusVal (inputs.getD i Status.Neutral) : Int) : ℚ) := by
  induction n with
  | zero => simp [accSum]
  | succ k ih =>
    rw [accSum, List.range_succ, List.foldl_append, Finset.sum_range_succ, ← accSum, ih]
    rfl

theorem Quit_quitting (m : Model) : (m.Quit).quitting = true := by
  rw [Model.Quit]; split <;> rfl

theorem Quit_current (m : Model) : (m.Quit).current = m.current := by
  rw [Model.Quit]; split <;> rfl

theorem Quit_chars (m : Model) : (m.Quit).chars = m.chars := by
  rw [Model.Quit]; split <;> rfl

theorem Quit_inputs (m : Model) : (m.Quit).inputs = m.inputs := by
  rw [Model.Quit]; split <;> rfl

theorem Quit_stats_of_running (m : Model) (h : m.time.running = true) :
    (m.Quit).stats = some m.summaryOf := by
  rw [Model.Quit, if_pos h]

theorem Quit_stats_of_not_running (m : Model) (h : m.time.running = false) :
    (m.Quit).stats = m.stats := by
  rw [Model.Quit, if_neg (by simp [h])]

theorem update_chars (m : Model) (msg : Msg) : ((m.Update msg).1).chars = m.chars := by
  cases msg with
  | keyCtrlC => exact Quit_chars m
  | keyEsc => exact Quit_chars m
  | keyChar c =>
    rw [Model.Update]
    by_cases h : okInputs.contains c
    · simp only [if_pos h]
      split
      · exact Quit_chars _
      · rfl
    · simp only [if_neg h]
  | tick => rfl

theorem update_current_step (m : Model) (msg : Msg) :
    ((m.Update msg).1).current = m.current ∨ ((m.Update msg).1).current = m.current + 1 := by
  cases msg with
  | keyCtrlC => exact Or.inl (Quit_current m)
  | keyEsc => exact Or.inl (Quit_current m)
  | keyChar c =>
    rw [Model.Update]
    by_cases h : okInputs.contains c
    · simp only [if_pos h]
      split
      · exact Or.inl (Quit_current _)
      · exact Or.inr rfl
    · simp only [if_neg h]
      exact Or.inl trivial
  | tick => exact Or.inl rfl

theorem runMsgs_current_mono (msgs : List Msg) :
    ∀ m : Model, m.current ≤ (runMsgs m msgs).current := by
  induction msgs with
  | nil => intro m; exact Nat.le_refl _
  | cons msg rest ih =>
    intro m
    rw [runMsgs]
    have hstep := update_current_step m msg
    rcases h : m.Update msg with ⟨m', cont⟩
    rw [h] at hstep
    simp only at hstep
    cases cont with
    | true =>
      simp only
      calc m.current ≤ m'.current := by rcases hstep with h1 | h1 <;> omega
        _ ≤ (runMsgs m' rest).current := ih m'
    | false =>
      simp only
      rcases hstep with h1 | h1 <;> omega

theorem runMsgs_chars (msgs : List Msg) :
    ∀ m : Model, (runMsgs m msgs).chars = m.chars := by
  induction msgs with
  | nil => intro m; rfl
  | cons msg rest ih =>
    intro m
    rw [runMsgs]
    have hch := update_chars m msg
    rcases h : m.Update msg with ⟨m', cont⟩
    rw [h] at hch
    cases cont with
    | true => simp only; rw [ih m', hch]
    | false => simpa using hch

theorem update_current_lt (m : Model) (msg : Msg)
    (h : m.current + 1 ≤ m.chars.length) :
    ((m.Update msg).1).current + 1 ≤ m.chars.length := by
  cases msg with
  | keyCtrlC => rw [show (m.Update .keyCtrlC).1 = m.Quit from rfl, Quit_current]; exact h
  | keyEsc => rw [show (m.Update .keyEsc).1 = m.Quit from rfl, Quit_current]; exact h
  | keyChar c =>
    rw [Model.Update]
    by_cases hc : okInputs.contains c
    · simp only [if_pos hc]
      split
      · rw [Quit_current]
        exact h
      · next hne =>
        have hne' : ¬ m.current = m.chars.length - 1 := hne
        have : m.current + 1 + 1 ≤ m.chars.length := by omega
        exact this
    · simp only [if_neg hc]
      exact h
  | tick => exact h

theorem runMsgs_current_lt (msgs : List Msg) :
    ∀ m : Model, m.current + 1 ≤ m.chars.length →
      (runMsgs m msgs).current + 1 ≤ (runMsgs m msgs).chars.length := by
  induction msgs with
  | nil => intro m h; exact h
  | cons msg rest ih =>
    intro m h
    rw [runMsgs]
    have hstep := update_current_lt m msg h
    have hch := update_chars m msg
    rcases hu : m.Update msg with ⟨m', cont⟩
    rw [hu] at hstep hch
    simp only at hstep hch
    cases cont with
    | true =>
      simp only
      exact ih m' (by rw [hch]; exact hstep)
    | false =>
      simp only
      rw [hch]
      exact hstep

/-! ## Claim theorems -/

/-- C6: `Quit` (the program's `Finish`) is idempotent: calling it twice on
any session state yields exactly the state produced by calling it once — in
particular the same `stats` summary, with no double-counting and no second
timer stop. -/
theorem c6_quit_idempotent (m : Model) : m.Quit.Quit = m.Quit := by
  rcases m with ⟨chars, words, inputs, current, quitting, ⟨running, ms⟩, stats⟩
  cases running <;> rfl

/-- C9: a single-character key event whose character is not in the accepted
alphabet (space and lowercase a-z) — and which is not one of the two abort
keys, those being distinct messages — leaves the whole session state
unchanged (buffer, statuses, cursor, finished flag, summary and timer) and
signals the loop to continue. -/
theorem c9_ignored_key (m : Model) (c : Char) (h : okInputs.contains c = false) :
    m.Update (.keyChar c) = (m, true) := by
  rw [Model.Update, if_neg (by rw [h]; simp)]

/-- Witness for C9 at a concrete state and key: `'!'` is not in the accepted
alphabet, and handling it changes nothing. -/
theorem c9_ignored_key_witness :
    (initModel [['a', 'b']]).Update (.keyChar '!') = (initModel [['a', 'b']], true) :=
  c9_ignored_key (initModel [['a', 'b']]) '!' (by decide)

/-- C1: the word-verdict scan of `Quit` appends one flag per space plus one
final flush (so it yields `count ' ' + 1` verdicts), and on the buffer
`"cat dog"`: typing every character correctly yields `goodWordCount = 2`,
while typing `"cat dpg"` yields `goodWordCount = 1` and `goodCharCount = 3`
(the original length of `"cat"`). -/
theorem c1_word_scan :
    (∀ (inputs : List Status) (chars : List Char),
        (wordFlags inputs chars).length = chars.count ' ' + 1) ∧
    ((runMsgs (initModel [['c', 'a', 't'], ['d', 'o', 'g']])
        (['c', 'a', 't', ' ', 'd', 'o', 'g'].map Msg.keyChar)).stats.map Summary.goodWords
      = some 2) ∧
    ((runMsgs (initModel [['c', 'a', 't'], ['d', 'o', 'g']])
        (['c', 'a', 't', ' ', 'd', 'p', 'g'].map Msg.keyChar)).stats.map Summary.goodWords
      = some 1) ∧
    (countGood
        (wordFlags
          (runMsgs (initModel [['c', 'a', 't'], ['d', 'o', 'g']])
            (['c', 'a', 't', ' ', 'd', 'p', 'g'].map Msg.keyChar)).inputs
          (runMsgs (initModel [['c', 'a', 't'], ['d', 'o', 'g']])
            (['c', 'a', 't', ' ', 'd', 'p', 'g'].map Msg.keyChar)).chars)
        (runMsgs (initModel [['c', 'a', 't'], ['d', 'o', 'g']])
          (['c', 'a', 't', ' ', 'd', 'p', 'g'].map Msg.keyChar)).words
      = (1, 3)) :=
  ⟨fun inputs chars => wordFlags_length inputs chars, by decide, by decide, by decide⟩

/-- C2 counterexample: aborting (escape) before any keystroke sets the
finished flag but produces NO summary — `Quit` returns before computing any
statistics because the timer never started, so `stats` stays empty,
contradicting the claim that such an abort still yields a summary. -/
theorem c2_counterexample :
    ((initModel [['c', 'a', 't']]).time.running = false) ∧
    (((initModel [['c', 'a', 't']]).Update .keyEsc).1.quitting = true) ∧
    (((initModel [['c', 'a', 't']]).Update .keyEsc).1.stats = none) := by
  decide

/-- C2 (amended): both endings (abort keys, and `Quit` as called on natural
completion) go through `Quit`, which always sets the finished flag; the
summary is computed exactly when the timer is running at that moment — an
abort before any keystroke (timer never started) sets the finished flag but
leaves the summary unset. -/
theorem c2_finish_summary (m : Model) :
    (m.Update .keyEsc = (m.Quit, false)) ∧
    (m.Update .keyCtrlC = (m.Quit, false)) ∧
    ((m.Quit).quitting = true) ∧
    (m.time.running = true → (m.Quit).stats = some m.summaryOf) ∧
    (m.time.running = false → (m.Quit).stats = m.stats) :=
  ⟨rfl, rfl, Quit_quitting m, Quit_stats_of_running m, Quit_stats_of_not_running m⟩

/-- Witness for C2 at a concrete session whose timer is running: quitting
produces a summary and sets the finished flag. -/
theorem c2_finish_summary_witness :
    ((({ initModel [['c', 'a']] with time := ⟨true, 1000⟩ } : Model).Quit).stats
      = some ({ initModel [['c', 'a']] with time := ⟨true, 1000⟩ } : Model).summaryOf) ∧
    ((({ initModel [['c', 'a']] with time := ⟨true, 1000⟩ } : Model).Quit).quitting = true) :=
  ⟨(c2_finish_summary _).2.2.2.1 rfl, (c2_finish_summary _).2.2.1⟩

/-- C3 counterexample: typing the whole 3-character buffer `"cat"` correctly
decides every character (no `Neutral` left), yet the cursor ends at 2, not
at `len(buffer) = 3` — the final accepted keystroke ends the session without
incrementing the cursor. -/
theorem c3_counterexample :
    (Status.Neutral ∉ (runMsgs (initModel [['c', 'a', 't']])
        (['c', 'a', 't'].map Msg.keyChar)).inputs) ∧
    ((runMsgs (initModel [['c', 'a', 't']]) (['c', 'a', 't'].map Msg.keyChar)).current = 2) ∧
    ((runMsgs (initModel [['c', 'a', 't']]) (['c', 'a', 't'].map Msg.keyChar)).chars.length = 3) ∧
    ((runMsgs (initModel [['c', 'a', 't']]) (['c', 'a', 't'].map Msg.keyChar)).current
      ≠ (runMsgs (initModel [['c', 'a', 't']]) (['c', 'a', 't'].map Msg.keyChar)).chars.length) := by
  decide

/-- C3 (amended): the cursor starts at 0, each processed event leaves it
unchanged or increments it by exactly 1 (so it never decreases over any
event sequence); an accepted keystroke increments it by 1 **except** when
the cursor sits on the final index `len(buffer) - 1`, where the session ends
with the cursor unchanged — hence the cursor always stays strictly below
`len(buffer)` and its terminal value after typing the whole buffer is
`len(buffer) - 1`, not `len(buffer)`. -/
theorem c3_cursor_monotone :
    (∀ ws : List (List Char), (initModel ws).current = 0) ∧
    (∀ (m : Model) (msg : Msg),
        ((m.Update msg).1).current = m.current ∨ ((m.Update msg).1).current = m.current + 1) ∧
    (∀ (m : Model) (msgs : List Msg), m.current ≤ (runMsgs m msgs).current) ∧
    (∀ (m : Model) (c : Char), okInputs.contains c = true → m.current ≠ m.chars.length - 1 →
        ((m.Update (.keyChar c)).1).current = m.current + 1 ∧ (m.Update (.keyChar c)).2 = true) ∧
    (∀ (m : Model) (c : Char), okInputs.contains c = true → m.current = m.chars.length - 1 →
        ((m.Update (.keyChar c)).1).current = m.current ∧ (m.Update (.keyChar c)).2 = false) ∧
    (∀ (m : Model) (msgs : List Msg), m.current + 1 ≤ m.chars.length →
        (runMsgs m msgs).current + 1 ≤ (runMsgs m msgs).chars.length) ∧
    ((runMsgs (initModel [['c', 'a', 't']]) (['c', 'a', 't'].map Msg.keyChar)).current
       = (initModel [['c', 'a', 't']]).chars.length - 1) := by
  refine ⟨fun ws => rfl, update_current_step, fun m msgs => runMsgs_current_mono msgs m,
    ?_, ?_, fun m msgs => runMsgs_current_lt msgs m, by decide⟩
  · intro m c hc hne
    rw [Model.Update, if_pos hc]
    simp only []
    rw [if_neg hne]
    exact ⟨rfl, rfl⟩
  · intro m c hc hterm
    rw [Model.Update, if_pos hc]
    simp only []
    rw [if_pos hterm]
    exact ⟨Quit_current _, rfl⟩

/-- Witness for C3 (amended) at a concrete model: an accepted non-final
keystroke advances the cursor from 0 to 1 and keeps it strictly below the
buffer length. -/
theorem c3_cursor_monotone_witness :
    (((initModel [['a', 'b']]).Update (.keyChar 'a')).1.current = 1) ∧
    ((runMsgs (initModel [['a', 'b']]) [.keyChar 'a']).current + 1
       ≤ (runMsgs (initModel [['a', 'b']]) [.keyChar 'a']).chars.length) := by
  constructor
  · have h := (c3_cursor_monotone.2.2.2.1) (initModel [['a', 'b']]) 'a' (by decide) (by decide)
    simpa using h.1
  · exact (c3_cursor_monotone.2.2.2.2.2.1) (initModel [['a', 'b']]) [.keyChar 'a'] (by decide)

/-- C4: for every non-empty word list whose words contain no space, the
constructed buffer splits back into exactly the original words (hence
exactly `len(words)` space-delimited segments), and the word-verdict scan
of `Quit` produces exactly `len(words)` verdicts for any status array, each
of them `Good` or `Bad`. -/
theorem c4_segments_verdicts (ws : List (List Char)) (inputs : List Status)
    (hne : ws ≠ []) (hsp : ∀ w ∈ ws, ' ' ∉ w) :
    (segments (mkChars ws) = ws) ∧
    ((segments (mkChars ws)).length = ws.length) ∧
    ((wordFlags inputs (mkChars ws)).length = ws.length) ∧
    (∀ f ∈ wordFlags inputs (mkChars ws), f = Status.Good ∨ f = Status.Bad) := by
  have hseg := segments_mkChars ws hne hsp
  have hcount := mkChars_count_space ws hne hsp
  have hlen : 1 ≤ ws.length := by
    cases ws with
    | nil => exact absurd rfl hne
    | cons w rest => simp
  refine ⟨hseg, by rw [hseg], ?_, wordFlags_good_bad inputs (mkChars ws)⟩
  rw [wordFlags_length, hcount]
  omega

/-- Witness for C4 on the two-word list `["cat", "dog"]`. -/
theorem c4_segments_verdicts_witness :
    (segments (mkChars [['c', 'a', 't'], ['d', 'o', 'g']]) = [['c', 'a', 't'], ['d', 'o', 'g']]) ∧
    ((wordFlags (List.replicate 7 Status.Good)
        (mkChars [['c', 'a', 't'], ['d', 'o', 'g']])).length = 2) := by
  have h := c4_segments_verdicts [['c', 'a', 't'], ['d', 'o', 'g']]
    (List.replicate 7 Status.Good) (by decide) (by decide)
  exact ⟨h.1, h.2.2.1⟩

/-- C5: an accepted keystroke marks the character under the cursor `Good`
exactly when it matches it and `Bad` otherwise; when the cursor is at the
final index `len(buffer) - 1` the same step invokes end-of-session handling
(finished flag set, continue = false) without a further event, and otherwise
the cursor advances by one with continue = true and the finished flag
untouched. -/
theorem c5_mark_and_finish (m : Model) (c : Char)
    (hc : okInputs.contains c = true)
    (hlen : m.inputs.length = m.chars.length)
    (hcur : m.current < m.chars.length) :
    (((m.Update (.keyChar c)).1).inputs.getD m.current Status.Neutral
        = if m.chars.getD m.current ' ' = c then Status.Good else Status.Bad) ∧
    (m.current = m.chars.length - 1 →
        ((m.Update (.keyChar c)).1).quitting = true ∧ (m.Update (.keyChar c)).2 = false ∧
        ((m.Update (.keyChar c)).1).current = m.current) ∧
    (m.current ≠ m.chars.length - 1 →
        ((m.Update (.keyChar c)).1).current = m.current + 1 ∧ (m.Update (.keyChar c)).2 = true ∧
        ((m.Update (.keyChar c)).1).quitting = m.quitting) := by
  rw [Model.Update, if_pos hc]
  simp only []
  by_cases hterm : m.current = m.chars.length - 1
  · rw [if_pos hterm]
    refine ⟨?_, fun _ => ⟨Quit_quitting _, rfl, Quit_current _⟩, fun h => absurd hterm h⟩
    rw [Quit_inputs]
    exact getD_set_self _ _ _ _ (by omega)
  · rw [if_neg hterm]
    refine ⟨?_, fun h => absurd h hterm, fun _ => ⟨rfl, rfl, rfl⟩⟩
    exact getD_set_self _ _ _ _ (by omega)

/-- Witness for C5: on buffer `"ab"`, typing `'a'` marks index 0 `Good`, and
the subsequent `'b'` at the final index ends the session in that same step. -/
theorem c5_mark_and_finish_witness :
    ((((initModel [['a', 'b']]).Update (.keyChar 'a')).1.Update (.keyChar 'b')).1.quitting
        = true) ∧
    ((((initModel [['a', 'b']]).Update (.keyChar 'a')).1.Update (.keyChar 'b')).2 = false) ∧
    (((initModel [['a', 'b']]).Update (.keyChar 'a')).1.inputs.getD 0 Status.Neutral
        = Status.Good) := by
  have h1 := c5_mark_and_finish (initModel [['a', 'b']]) 'a' (by decide) (by decide) (by decide)
  have h2 := c5_mark_and_finish ((initModel [['a', 'b']]).Update (.keyChar 'a')).1 'b'
    (by decide) (by decide) (by decide)
  exact ⟨(h2.2.1 (by decide)).1, (h2.2.1 (by decide)).2.1, h1.1.trans (by decide)⟩

/-- C7: the accuracy computed at session end is the sum over indices
`0..cursor-1` of the per-status numeric value (Good = +1, Bad = 0,
Neutral = -1) divided by the cursor, expressed as a percentage; concretely,
8 `Good` and 2 `Bad` among 10 typed characters followed by an abort yields
exactly 80. -/
theorem c7_accuracy :
    (∀ m : Model,
        m.summaryOf.accuracyPct
          = 100 * ((∑ i ∈ Finset.range m.current,
              ((statusVal (m.inputs.getD i Status.Neutral) : Int) : ℚ)) / (m.current : ℚ))) ∧
    ((runMsgs (initModel [['c', 'a', 't'], ['d', 'o', 'g'], ['f', 'i', 's', 'h']])
        (['c', 'a', 't', ' ', 'd', 'p', 'g', ' ', 'f', 'x'].map Msg.keyChar
          ++ [Msg.keyEsc])).stats.map Summary.accuracyPct = some 80) := by
  refine ⟨fun m => ?_, by with_unfolding_all rfl⟩
  simp only [Model.summaryOf]
  rw [accSum_eq]

/-- C8: the WPM computed at session end equals
`goodCharCount / 5 / elapsedMinutes`, where `goodCharCount` is the sum of
the original word lengths over the indices with a `Good` verdict;
concretely, 25 good characters in exactly one minute yield WPM = 5. -/
theorem c8_wpm :
    (∀ m : Model,
        m.summaryOf.wpm
          = ((countGood (wordFlags m.inputs m.chars) m.words).2 : ℚ) / 5 / m.time.minutes) ∧
    (∀ (typed : List Status) (ws : List (List Char)),
        (countGood typed ws).2
          = ∑ j ∈ Finset.range typed.length,
              if typed.getD j Status.Neutral = Status.Good then (ws.getD j []).length else 0) ∧
    ((Model.Quit
        { chars := mkChars [['a', 'b', 'c', 'd', 'e'], ['f', 'g', 'h', 'i', 'j'],
            ['k', 'l', 'm', 'n', 'o'], ['p', 'q', 'r', 's', 't'], ['u', 'v', 'w', 'x', 'y']]
          words := [['a', 'b', 'c', 'd', 'e'], ['f', 'g', 'h', 'i', 'j'],
            ['k', 'l', 'm', 'n', 'o'], ['p', 'q', 'r', 's', 't'], ['u', 'v', 'w', 'x', 'y']]
          inputs := List.replicate 29 Status.Good
          current := 28
          quitting := false
          time := ⟨true, 60000⟩
          stats := none }).stats.map Summary.wpm = some 5) := by
  refine ⟨fun m => ?_, fun typed ws => ?_, by with_unfolding_all rfl⟩
  · simp only [Model.summaryOf]
    rw [div_div]
  · rw [countGood_spec]

/-- C10: the verdict list scanned by `Quit` has `count ' ' + 1` entries; the
constructed buffer of `n` no-space words has exactly `n - 1` spaces, so the
scan yields exactly `n` verdicts — and for ANY buffer with at most `n - 1`
spaces (e.g. after wrapping replaced separators) it yields at most `n`
verdicts, so every index used by the `words[index]` lookup is in bounds. -/
theorem c10_lookup_safe (ws : List (List Char)) (inputs : List Status) (chars : List Char)
    (hne : ws ≠ []) (hsp : ∀ w ∈ ws, ' ' ∉ w) :
    ((mkChars ws).count ' ' = ws.length - 1) ∧
    ((wordFlags inputs (mkChars ws)).length = ws.length) ∧
    (chars.count ' ' + 1 ≤ ws.length → (wordFlags inputs chars).length ≤ ws.length) ∧
    (∀ i < (wordFlags inputs (mkChars ws)).length, i < ws.length) := by
  have hcount := mkChars_count_space ws hne hsp
  have hlen : 1 ≤ ws.length := by
    cases ws with
    | nil => exact absurd rfl hne
    | cons w rest => simp
  refine ⟨hcount, ?_, ?_, ?_⟩
  · rw [wordFlags_length, hcount]; omega
  · intro h; rw [wordFlags_length]; omega
  · intro i hi
    rw [wordFlags_length, hcount] at hi
    omega

/-- Witness for C10 on `["cat", "dog"]`: one separating space, two verdicts. -/
theorem c10_lookup_safe_witness :
    ((mkChars [['c', 'a', 't'], ['d', 'o', 'g']]).count ' ' = 1) ∧
    ((wordFlags (List.replicate 7 Status.Neutral)
        (mkChars [['c', 'a', 't'], ['d', 'o', 'g']])).length = 2) := by
  have h := c10_lookup_safe [['c', 'a', 't'], ['d', 'o', 'g']]
    (List.replicate 7 Status.Neutral) [] (by decide) (by decide)
  exact ⟨h.1, h.2.1⟩

end TypingTest
